import Mathlib

/-!
Verification development for the Elasticsearch role update utilities
(`es_role_manager_utils.py`, `es_role_auto_update_new.py`,
`es_role_selective_update.py`, `es_role_rollback.py`).

Modelling conventions:
* Python strings are modelled as `List Char` (`Str`); `str.strip` is `trim`,
  `str.split(",")` is `splitOnComma`, `",".join` is `joinComma`, `sorted` on
  strings is `sortStr` (insertion sort under the code-point lexicographic
  order `sle`, matching Python's string comparison).
* Python sets are modelled as duplicate-free lists built by
  insert-if-absent (`insertS` / `setOfList`); membership agrees with the
  Python set, and the list order is one fixed traversal order (Python's set
  iteration order is arbitrary; every claim proved below depends only on
  membership, or on representatives that coincide for all orders).
* A role definition dictionary is modelled structurally
  (`RoleDefinition`): a missing `indices` key and an empty list behave
  identically in every modelled code path, so both are modelled as `[]`;
  `metadata._reserved` truthiness is a `Bool`; entry keys that the code
  reads with `dict.get` and a default are `Option` fields.
* For the metadata-stripping dict comprehensions the document is modelled
  as an association list `List (String × V)` with arbitrary values.
-/

abbrev Str := List Char

/-- Whitespace test used by `trim` (Python `str.strip`). -/
def isWs (c : Char) : Bool := c.isWhitespace

/-- Python `str.strip()`: remove whitespace from both ends. -/
def trim (l : Str) : Str := List.rdropWhile isWs (List.dropWhile isWs l)

/-- Python `s.split(",")`: split at every comma; separators are dropped and
empty pieces are kept (`"".split(",") == [""]`). -/
def splitOnComma : Str → List Str
  | [] => [[]]
  | c :: rest =>
    match splitOnComma rest with
    | [] => [[]]
    | p :: ps => if c = ',' then [] :: p :: ps else (c :: p) :: ps

/-- Python `",".join(parts)`. -/
def joinComma : List Str → Str
  | [] => []
  | [p] => p
  | p :: q :: ps => p ++ ',' :: joinComma (q :: ps)

/-- Python `s.split(":", 1)` for a string known to contain a colon:
the piece before the first colon and everything after it. -/
def splitFirstColon : Str → Str × Str
  | [] => ([], [])
  | c :: rest =>
    if c = ':' then ([], rest)
    else
      let ab := splitFirstColon rest
      (c :: ab.1, ab.2)

/-- Code-point lexicographic comparison of strings, as used by Python's
`<=` on `str` (and hence by `sorted`). -/
def strLeB : Str → Str → Bool
  | [], _ => true
  | _ :: _, [] => false
  | a :: as, b :: bs =>
    if a.toNat < b.toNat then true
    else if b.toNat < a.toNat then false
    else strLeB as bs

/-- The propositional form of `strLeB`. -/
def sle (a b : Str) : Prop := strLeB a b = true

instance : DecidableRel sle := fun a b => inferInstanceAs (Decidable (strLeB a b = true))

instance : IsTotal Str sle := ⟨fun a b => by
  show strLeB a b = true ∨ strLeB b a = true
  induction a generalizing b with
  | nil => left; rfl
  | cons x xs ih =>
    cases b with
    | nil => right; rfl
    | cons y ys =>
      rcases Nat.lt_trichotomy x.toNat y.toNat with h | h | h
      · left; simp [strLeB, h]
      · rcases ih ys with h2 | h2
        · left; simp [strLeB, h, h2, Nat.lt_irrefl]
        · right; simp [strLeB, h.symm, Nat.lt_irrefl, h2]
      · right; simp [strLeB, h]⟩

instance : IsTrans Str sle := ⟨fun a b c h1 h2 => by
  replace h1 : strLeB a b = true := h1
  replace h2 : strLeB b c = true := h2
  show strLeB a c = true
  induction a generalizing b c with
  | nil => rfl
  | cons x xs ih =>
    cases b with
    | nil => simp [strLeB] at h1
    | cons y ys =>
      cases c with
      | nil => simp [strLeB] at h2
      | cons z zs =>
        simp only [strLeB] at h1 h2 ⊢
        rcases Nat.lt_trichotomy x.toNat y.toNat with hxy | hxy | hxy
        · rcases Nat.lt_trichotomy y.toNat z.toNat with hyz | hyz | hyz
          · simp [Nat.lt_trans hxy hyz]
          · simp [hyz ▸ hxy]
          · simp [hyz, Nat.lt_asymm hyz, Nat.lt_irrefl] at h2
        · rcases Nat.lt_trichotomy y.toNat z.toNat with hyz | hyz | hyz
          · simp [hxy ▸ hyz]
          · have hxz : x.toNat = z.toNat := hxy.trans hyz
            simp only [hxy, Nat.lt_irrefl, if_false] at h1
            simp only [hyz, Nat.lt_irrefl, if_false] at h2
            simp only [hxz, Nat.lt_irrefl, if_false]
            exact ih ys zs h1 h2
          · simp [hyz, Nat.lt_asymm hyz, Nat.lt_irrefl] at h2
        · simp [hxy, Nat.lt_asymm hxy, Nat.lt_irrefl] at h1⟩

/-- Python `sorted(parts)` for a list of strings. -/
def sortStr (l : List Str) : List Str := List.insertionSort sle l

/-- `ElasticsearchRoleManager.normalize_pattern_for_comparison`
(`es_role_manager_utils.py` lines 121-138): if the pattern contains a
comma, split on commas, strip every part, sort the parts and rejoin with
commas; otherwise return the stripped input. -/
def normalize_pattern_for_comparison (p : Str) : Str :=
  if ',' ∈ p then joinComma (sortStr ((splitOnComma p).map trim))
  else trim p

/-- One element of a role's `indices` list: an index-privilege grant.
Keys read through `dict.get` with a default are `Option` fields. -/
structure IndexEntry where
  names : List Str := []
  privileges : Option (List Str) := none
  allow_restricted_indices : Option Bool := none
  field_security : Option Str := none
deriving DecidableEq

/-- One element of a role's `remote_indices` list. -/
structure RemoteIndexEntry where
  names : List Str := []
  clusters : List Str := []
deriving DecidableEq

/-- A role definition document, restricted to the fields the analysed code
reads. `metadata_reserved` is the truthiness of
`role_definition.get("metadata", {}).get("_reserved")`. -/
structure RoleDefinition where
  indices : List IndexEntry := []
  remote_indices : List RemoteIndexEntry := []
  metadata_reserved : Bool := false
deriving DecidableEq

/-- Python `set.add`: append the element unless already present. -/
def insertS {α : Type} [DecidableEq α] (s : List α) (x : α) : List α :=
  if x ∈ s then s else s ++ [x]

/-- Build a Python set from the traversal order of the generated elements. -/
def setOfList {α : Type} [DecidableEq α] (l : List α) : List α :=
  l.foldl insertS []

/-- Python `set.update`: insert all elements of the second list. -/
def listUnion {α : Type} [DecidableEq α] (s t : List α) : List α :=
  t.foldl insertS s

/-- The comma-branch scan loop of `extract_remote_patterns`
(`es_role_manager_utils.py` lines 166-180): walk the comma-separated
pieces accumulating the shared cluster alias and the bare patterns;
a piece without a colon is skipped; on a mismatching alias the loop
breaks with the alias reset to `none`. -/
def scanParts : List Str → Option Str → List Str → Option Str × List Str
  | [], cp, lp => (cp, lp)
  | part :: rest, none, lp =>
    if ':' ∈ trim part then
      scanParts rest (some (splitFirstColon (trim part)).1)
        (lp ++ [(splitFirstColon (trim part)).2])
    else scanParts rest none lp
  | part :: rest, some c, lp =>
    if ':' ∈ trim part then
      if (splitFirstColon (trim part)).1 = c then
        scanParts rest (some c) (lp ++ [(splitFirstColon (trim part)).2])
      else (none, lp)
    else scanParts rest (some c) lp

/-- The fallback loop of `extract_remote_patterns` (lines 188-193): emit
each colon-carrying piece separately; pieces without a colon are dropped. -/
def commaFallback (parts : List Str) : List (Str × Str) :=
  parts.flatMap fun part =>
    if ':' ∈ trim part then [splitFirstColon (trim part)] else []

/-- The comma branch of `extract_remote_patterns` (lines 163-193): if the
scan ends with a truthy (nonempty) shared alias and a nonempty pattern
list, emit one combined pair in original order, else fall back to
per-piece emission. -/
def commaBranch (parts : List Str) : List (Str × Str) :=
  match scanParts parts none [] with
  | (some c, p :: ps) =>
    if c = [] then commaFallback parts
    else [(c, joinComma (p :: ps))]
  | _ => commaFallback parts

/-- Remote pairs contributed by one name token of an `indices` entry
(`extract_remote_patterns`, lines 158-199). -/
def remote_from_name (name : Str) : List (Str × Str) :=
  if ':' ∈ name then
    if ',' ∈ name then commaBranch (splitOnComma name)
    else [splitFirstColon name]
  else []

/-- `ElasticsearchRoleManager.extract_remote_patterns`
(`es_role_manager_utils.py` lines 140-209): the set of
(cluster alias, pattern) pairs from colon-qualified `indices` names plus
the `remote_indices` section. -/
def extract_remote_patterns (role : RoleDefinition) : List (Str × Str) :=
  setOfList
    ((role.indices.flatMap fun e => e.names.flatMap remote_from_name) ++
      (role.remote_indices.flatMap fun e =>
        e.names.flatMap fun n => e.clusters.map fun c => (c, n)))

/-- Loop body of `get_base_patterns`: keep the first representative per
normalized form. -/
def get_base_patterns_go : List (Str × Str) → List Str → List Str → List Str
  | [], base, _ => base
  | cp :: rest, base, seen =>
    let pat := trim cp.2
    let n := normalize_pattern_for_comparison pat
    if n ∈ seen then get_base_patterns_go rest base seen
    else get_base_patterns_go rest (base ++ [pat]) (seen ++ [n])

/-- `ElasticsearchRoleManager.get_base_patterns`
(`es_role_manager_utils.py` lines 211-237): strip the cluster alias and
deduplicate by normalized form, keeping the first original-form
representative encountered. -/
def get_base_patterns (rps : List (Str × Str)) : List Str :=
  get_base_patterns_go rps [] []

/-- Local patterns contributed by one name token: a token containing a
colon is never local. -/
def local_from_name (name : Str) : List Str :=
  if ':' ∈ name then [] else [trim name]

/-- `ElasticsearchRoleManager.get_existing_local_patterns`
(`es_role_manager_utils.py` lines 239-260). -/
def get_existing_local_patterns (role : RoleDefinition) : List Str :=
  setOfList (role.indices.flatMap fun e => e.names.flatMap local_from_name)

/-- `ElasticsearchRoleManager.get_existing_local_patterns_normalized`
(`es_role_manager_utils.py` lines 262-284). -/
def get_existing_local_patterns_normalized (role : RoleDefinition) : List Str :=
  setOfList (role.indices.flatMap fun e => e.names.flatMap fun n =>
    if ':' ∈ n then [] else [normalize_pattern_for_comparison n])

/-- `ElasticsearchRoleManager.needs_update`
(`es_role_manager_utils.py` lines 286-323): reserved roles and roles
without remote patterns need nothing; otherwise propose every base
pattern whose normalized form is not an existing normalized local
pattern. -/
def needs_update (role : RoleDefinition) : Bool × List Str :=
  if role.metadata_reserved = true then (false, [])
  else
    let rps := extract_remote_patterns role
    if rps = [] then (false, [])
    else
      let base := get_base_patterns rps
      let existing := get_existing_local_patterns_normalized role
      let toAdd := base.filter fun p =>
        decide (normalize_pattern_for_comparison p ∈ existing) = false
      if toAdd = [] then (false, []) else (true, toAdd)

/-- The synthesized default template of `add_local_patterns_to_role`
(`es_role_manager_utils.py` lines 356-361). -/
def default_template_entry : IndexEntry :=
  { names := []
    privileges := some ["read".toList, "view_index_metadata".toList,
      "read_cross_cluster".toList]
    allow_restricted_indices := some false
    field_security := none }

/-- Template lookup of `add_local_patterns_to_role` (lines 345-353): the
first `indices` entry holding a colon-qualified name. -/
def find_template_entry (indices : List IndexEntry) : Option IndexEntry :=
  indices.find? fun e => e.names.any fun n => decide (':' ∈ n)

/-- `ElasticsearchRoleManager.add_local_patterns_to_role`
(`es_role_manager_utils.py` lines 325-380): deep-copy the role and append
one new grant entry carrying the given patterns, with privilege settings
taken from the template entry. The Python deep copy makes the function
pure; in this embedding purity is intrinsic. -/
def add_local_patterns_to_role (role : RoleDefinition) (patterns_to_add : List Str) :
    RoleDefinition :=
  let tmpl := (find_template_entry role.indices).getD default_template_entry
  let new_entry : IndexEntry :=
    { names := patterns_to_add
      privileges := some (tmpl.privileges.getD ["read".toList, "view_index_metadata".toList])
      allow_restricted_indices := some (tmpl.allow_restricted_indices.getD false)
      field_security := tmpl.field_security }
  { role with indices := role.indices ++ [new_entry] }

/-- `get_patterns_from_reference_role` (`es_role_auto_update_new.py`
lines 330-348): all local (colon-free) patterns of a reference role. -/
def get_patterns_from_reference_role (role : RoleDefinition) : List Str :=
  setOfList (role.indices.flatMap fun e => e.names.flatMap local_from_name)

/-- One reconciliation pass of `analyze_roles`
(`es_role_auto_update_new.py` lines 453-483): add each candidate whose
normalized form is not yet in the satisfied set, updating that set. -/
def reconcile_pass : List Str → List Str → List Str → List Str × List Str
  | [], added, existing => (added, existing)
  | p :: rest, added, existing =>
    let n := normalize_pattern_for_comparison p
    if n ∈ existing then reconcile_pass rest added existing
    else reconcile_pass rest (added ++ [p]) (existing ++ [n])

/-- Per-role result of `analyze_roles`: the proposed patterns and the
provenance breakdown (`ccs` is remote-derived, `inject` is the injected
baseline, `reference` is reference-file sync). -/
structure AnalyzeResult where
  patterns_to_add : List Str
  ccs : List Str
  inject : List Str
  reference : List Str
deriving DecidableEq

/-- The three reconciliation passes of `analyze_roles`
(`es_role_auto_update_new.py` lines 447-483), before force handling. -/
def analyze_passes (role : RoleDefinition) (inject_patterns : List Str)
    (reference_role : Option RoleDefinition) (skip_ccs_analysis : Bool) :
    AnalyzeResult :=
  let existing0 := setOfList
    ((get_existing_local_patterns role).map normalize_pattern_for_comparison)
  let ccs_patterns := if skip_ccs_analysis = true then [] else (needs_update role).2
  let s1 := reconcile_pass ccs_patterns [] existing0
  let s2 := reconcile_pass inject_patterns [] s1.2
  let ref_patterns :=
    match reference_role with
    | some r => get_patterns_from_reference_role r
    | none => []
  let s3 := reconcile_pass ref_patterns [] s2.2
  { patterns_to_add := s1.1 ++ s2.1 ++ s3.1
    ccs := s1.1
    inject := s2.1
    reference := s3.1 }

/-- Force-mode augmentation of `analyze_roles`
(`es_role_auto_update_new.py` lines 486-490). -/
def forceResult (pre : AnalyzeResult) (rps : List (Str × Str)) : AnalyzeResult :=
  { pre with
      patterns_to_add := listUnion pre.patterns_to_add (get_base_patterns rps)
      ccs := listUnion pre.ccs (get_base_patterns rps) }

/-- Per-role behaviour of `analyze_roles`
(`es_role_auto_update_new.py` lines 434-512): `none` when the role is
reserved or ends with nothing to add (the role is then absent from
`roles_to_update`), otherwise the computed result. -/
def analyze_role (role : RoleDefinition) (force : Bool) (inject_patterns : List Str)
    (reference_role : Option RoleDefinition) (skip_ccs_analysis : Bool) :
    Option AnalyzeResult :=
  if role.metadata_reserved = true then none
  else
    let pre := analyze_passes role inject_patterns reference_role skip_ccs_analysis
    let res :=
      if pre.patterns_to_add = [] ∧ force = true ∧ extract_remote_patterns role ≠ [] then
        forceResult pre (extract_remote_patterns role)
      else pre
    if res.patterns_to_add = [] then none else some res

/-- Per-role behaviour of `analyze_selected_roles`
(`es_role_selective_update.py` lines 190-234): reserved roles are
skipped; a role enters the update map when `needs_update` says so or when
force mode finds remote patterns, in which case an empty proposal is
replaced by the full base-pattern set. -/
def analyze_selected_role (role : RoleDefinition) (force : Bool) : Option (List Str) :=
  if role.metadata_reserved = true then none
  else
    let nu := needs_update role
    if nu.1 = true ∨ (force = true ∧ extract_remote_patterns role ≠ []) then
      some (if nu.2 = [] ∧ force = true
        then get_base_patterns (extract_remote_patterns role) else nu.2)
    else none

/-- The metadata fields removed before a role is transmitted. -/
def stripped_metadata_fields : List String :=
  ["_reserved", "_deprecated", "_deprecated_reason"]

/-- The dict comprehension of `ElasticsearchRoleManager.update_role`
(`es_role_manager_utils.py` lines 86-87): the document actually
transmitted by the PUT request. -/
def update_role_clean_definition {V : Type} (d : List (String × V)) :
    List (String × V) :=
  d.filter fun kv =>
    decide (kv.1 ∉ ["_reserved", "_deprecated", "_deprecated_reason"])

/-- `clean_role_definition` (`es_role_rollback.py` lines 90-93), applied
by rollback-restore before writing a backed-up role. -/
def clean_role_definition {V : Type} (d : List (String × V)) :
    List (String × V) :=
  d.filter fun kv =>
    decide (kv.1 ∉ ["_reserved", "_deprecated", "_deprecated_reason"])

/-- Association-list key lookup (the observer for document fields). -/
def lookupKey {V : Type} (k : String) : List (String × V) → Option V
  | [] => none
  | kv :: rest => if kv.1 = k then some kv.2 else lookupKey k rest

/-- Specification-side normalizer, written from the spec's words with the
library's split and join: split on `,`, trim each part, sort
lexicographically, rejoin with `,`; otherwise trim. -/
def normalize_pattern_spec (p : Str) : Str :=
  if ',' ∈ p then List.intercalate [','] (sortStr ((p.splitOn ',').map trim))
  else trim p

/-! Concrete role definitions used in the scenario theorems, the
counterexamples and the witnesses. -/

/-- A grant whose names are the local pattern `metrics-*,traces-*` and the
remote token `prod:traces-*,metrics-*` (the second comma piece carries no
cluster alias). -/
def entryMixedToken : IndexEntry :=
  { names := ["metrics-*,traces-*".toList, "prod:traces-*,metrics-*".toList]
    privileges := some ["read".toList]
    allow_restricted_indices := some false }

/-- The role of the normalized-match scenario exactly as the spec words it. -/
def roleMixedToken : RoleDefinition := { indices := [entryMixedToken] }

/-- The same role with every comma piece of the remote token carrying the
`prod` alias. -/
def entryAliasedToken : IndexEntry :=
  { names := ["metrics-*,traces-*".toList, "prod:traces-*,prod:metrics-*".toList]
    privileges := some ["read".toList]
    allow_restricted_indices := some false }

/-- A role whose remote token aliases every comma piece. -/
def roleAliasedToken : RoleDefinition := { indices := [entryAliasedToken] }

/-- The grant of the baseline-injection scenario:
`names = ["prod:logs-*", "qa:logs-*"]` and no local patterns. -/
def entryTwoClusters : IndexEntry :=
  { names := ["prod:logs-*".toList, "qa:logs-*".toList]
    privileges := some ["read".toList]
    allow_restricted_indices := some false }

/-- The role of the baseline-injection scenario. -/
def roleTwoClusters : RoleDefinition := { indices := [entryTwoClusters] }

/-- The expected reconciliation result of the baseline-injection scenario. -/
def expectedTwoClusters : AnalyzeResult :=
  { patterns_to_add := ["logs-*".toList, "partial-*".toList, "restored-*".toList]
    ccs := ["logs-*".toList]
    inject := ["partial-*".toList, "restored-*".toList]
    reference := [] }

/-- A grant holding one remote pattern already covered locally. -/
def entryCovered : IndexEntry :=
  { names := ["prod:logs-*".toList, "logs-*".toList]
    privileges := some ["read".toList]
    allow_restricted_indices := some false }

/-- A role whose local patterns fully cover its remote patterns. -/
def roleCovered : RoleDefinition := { indices := [entryCovered] }

/-- A reserved role that nevertheless holds a remote pattern. -/
def roleReserved : RoleDefinition :=
  { indices := [entryTwoClusters], metadata_reserved := true }

/-- A role definition with no grants at all. -/
def roleEmpty : RoleDefinition := {}

/-- The single grant entry appended when `add_local_patterns_to_role` is
called on `roleEmpty` with an empty pattern set. -/
def emptyAddResultEntry : IndexEntry :=
  { names := []
    privileges := some ["read".toList, "view_index_metadata".toList,
      "read_cross_cluster".toList]
    allow_restricted_indices := some false
    field_security := none }

/-! Supporting lemmas about the string primitives. -/

theorem dropWhile_after_rdropWhile (p : Char → Bool) (l : Str) :
    List.dropWhile p (List.rdropWhile p (List.dropWhile p l)) =
      List.rdropWhile p (List.dropWhile p l) := by
  rcases hr : List.rdropWhile p (List.dropWhile p l) with _ | ⟨a, t⟩
  · simp
  · have hpre : List.rdropWhile p (List.dropWhile p l) <+: List.dropWhile p l :=
      List.rdropWhile_prefix p _
    rw [hr] at hpre
    obtain ⟨s, hs⟩ := hpre
    have hd : List.dropWhile p l = a :: (t ++ s) := by rw [← hs]; simp
    have hne : List.dropWhile p l ≠ [] := by rw [hd]; simp
    have hna : p ((List.dropWhile p l).head hne) = false := List.head_dropWhile_not p l hne
    have hha : (List.dropWhile p l).head hne = a := by simp [hd]
    have hna2 : ¬ p a = true := by rw [hha] at hna; simp [hna]
    rw [List.dropWhile_cons, if_neg hna2]

theorem trim_idem (l : Str) : trim (trim l) = trim l := by
  show List.rdropWhile isWs (List.dropWhile isWs (List.rdropWhile isWs (List.dropWhile isWs l))) =
    List.rdropWhile isWs (List.dropWhile isWs l)
  rw [dropWhile_after_rdropWhile, List.rdropWhile_idempotent]

theorem mem_of_mem_trim {c : Char} {l : Str} (h : c ∈ trim l) : c ∈ l :=
  (List.dropWhile_sublist isWs).subset ((List.rdropWhile_prefix isWs _).sublist.subset h)

theorem splitOnComma_ne_nil (l : Str) : splitOnComma l ≠ [] := by
  cases l with
  | nil => simp [splitOnComma]
  | cons c rest =>
    simp only [splitOnComma]
    split
    · simp
    · split <;> simp

theorem not_mem_comma_splitOnComma (l : Str) (q : Str) (hq : q ∈ splitOnComma l) :
    ',' ∉ q := by
  induction l generalizing q with
  | nil =>
    simp only [splitOnComma, List.mem_singleton] at hq
    subst hq; simp
  | cons c rest ih =>
    rcases hs : splitOnComma rest with _ | ⟨p, ps⟩
    · exact absurd hs (splitOnComma_ne_nil rest)
    · simp only [splitOnComma, hs] at hq
      by_cases hc : c = ','
      · rw [if_pos hc] at hq
        rcases List.mem_cons.mp hq with h1 | h1
        · subst h1; simp
        · exact ih q (hs ▸ h1)
      · rw [if_neg hc] at hq
        rcases List.mem_cons.mp hq with h1 | h1
        · subst h1
          intro hm
          rcases List.mem_cons.mp hm with h2 | h2
          · exact hc h2.symm
          · exact ih p (hs ▸ List.mem_cons_self p ps) h2
        · exact ih q (hs ▸ List.mem_cons_of_mem p h1)

theorem splitOnComma_eq_single {l : Str} (h : ',' ∉ l) : splitOnComma l = [l] := by
  induction l with
  | nil => rfl
  | cons c rest ih =>
    have hc : ¬ c = ',' := fun he => h (he ▸ List.mem_cons_self c rest)
    have hr : ',' ∉ rest := fun hm => h (List.mem_cons_of_mem c hm)
    simp [splitOnComma, ih hr, hc]

theorem splitOnComma_append_comma {q : Str} (hq : ',' ∉ q) (t : Str) :
    splitOnComma (q ++ ',' :: t) = q :: splitOnComma t := by
  induction q with
  | nil =>
    rcases hs : splitOnComma t with _ | ⟨p, ps⟩
    · exact absurd hs (splitOnComma_ne_nil t)
    · simp [splitOnComma, hs]
  | cons c q' ih =>
    have hc : ¬ c = ',' := fun he => hq (he ▸ List.mem_cons_self c q')
    have hq' : ',' ∉ q' := fun hm => hq (List.mem_cons_of_mem c hm)
    simp only [List.cons_append, splitOnComma, List.append_eq]
    rw [ih hq']
    simp [hc]

theorem splitOnComma_joinComma :
    ∀ (ps : List Str), ps ≠ [] → (∀ q ∈ ps, ',' ∉ q) →
      splitOnComma (joinComma ps) = ps
  | [], h, _ => absurd rfl h
  | [p], _, hq => by
    simp only [joinComma]
    exact splitOnComma_eq_single (hq p (List.mem_singleton_self p))
  | p :: q :: ps, _, hq => by
    simp only [joinComma]
    rw [splitOnComma_append_comma (hq p (List.mem_cons_self p (q :: ps)))]
    rw [splitOnComma_joinComma (q :: ps) (by simp)
      (fun x hx => hq x (List.mem_cons_of_mem p hx))]

theorem mem_comma_joinComma (p q : Str) (ps : List Str) :
    ',' ∈ joinComma (p :: q :: ps) := by
  simp only [joinComma]
  exact List.mem_append.mpr (Or.inr (List.mem_cons_self _ _))

theorem two_le_length_splitOnComma {l : Str} (h : ',' ∈ l) :
    2 ≤ (splitOnComma l).length := by
  induction l with
  | nil => simp at h
  | cons c rest ih =>
    rcases hs : splitOnComma rest with _ | ⟨p, ps⟩
    · exact absurd hs (splitOnComma_ne_nil rest)
    · simp only [splitOnComma, hs]
      by_cases hc : c = ','
      · simp [hc]
      · have hrest : ',' ∈ rest := by
          rcases List.mem_cons.mp h with h1 | h1
          · exact absurd h1.symm hc
          · exact h1
        have h2 := ih hrest
        rw [hs] at h2
        simp only [List.length_cons] at h2 ⊢
        rw [if_neg hc]
        simpa using h2

theorem normalize_pattern_idem (p : Str) :
    normalize_pattern_for_comparison (normalize_pattern_for_comparison p) =
      normalize_pattern_for_comparison p := by
  by_cases hc : ',' ∈ p
  · have hparts : 2 ≤ (splitOnComma p).length := two_le_length_splitOnComma hc
    have hlen : 2 ≤ (sortStr ((splitOnComma p).map trim)).length := by
      have hp := (List.perm_insertionSort sle ((splitOnComma p).map trim)).length_eq
      show 2 ≤ (List.insertionSort sle ((splitOnComma p).map trim)).length
      rw [hp, List.length_map]
      exact hparts
    have hmem : ∀ q ∈ sortStr ((splitOnComma p).map trim), ',' ∉ q ∧ trim q = q := by
      intro q hq
      have hq2 : q ∈ (splitOnComma p).map trim := by
        rw [show sortStr ((splitOnComma p).map trim) =
          List.insertionSort sle ((splitOnComma p).map trim) from rfl] at hq
        rwa [List.mem_insertionSort] at hq
      obtain ⟨orig, ho, rfl⟩ := List.mem_map.mp hq2
      refine ⟨fun hcm => not_mem_comma_splitOnComma p orig ho (mem_of_mem_trim hcm), trim_idem orig⟩
    obtain ⟨a, b, rest, hab⟩ :
        ∃ a b r, sortStr ((splitOnComma p).map trim) = a :: b :: r := by
      rcases hsp : sortStr ((splitOnComma p).map trim) with _ | ⟨a, t⟩
      · rw [hsp] at hlen; simp at hlen
      · rcases t with _ | ⟨b, r⟩
        · rw [hsp] at hlen; simp at hlen
        · exact ⟨a, b, r, rfl⟩
    have hcomma : ',' ∈ joinComma (sortStr ((splitOnComma p).map trim)) := by
      rw [hab]; exact mem_comma_joinComma a b rest
    have hsorted : List.Sorted sle (sortStr ((splitOnComma p).map trim)) :=
      List.sorted_insertionSort sle ((splitOnComma p).map trim)
    have h1 : normalize_pattern_for_comparison p =
        joinComma (sortStr ((splitOnComma p).map trim)) := by
      simp [normalize_pattern_for_comparison, hc]
    rw [h1]
    rw [normalize_pattern_for_comparison, if_pos hcomma]
    rw [splitOnComma_joinComma (sortStr ((splitOnComma p).map trim))
      (by rw [hab]; simp) (fun q hq => (hmem q hq).1)]
    have hmapid : (sortStr ((splitOnComma p).map trim)).map trim =
        sortStr ((splitOnComma p).map trim) := by
      have := List.map_congr_left (l := sortStr ((splitOnComma p).map trim))
        (f := trim) (g := id) (fun q hq => (hmem q hq).2)
      rwa [List.map_id] at this
    rw [hmapid]
    rw [show sortStr (sortStr ((splitOnComma p).map trim)) =
      sortStr ((splitOnComma p).map trim) from hsorted.insertionSort_eq]
  · have hct : ',' ∉ trim p := fun hm => hc (mem_of_mem_trim hm)
    simp only [normalize_pattern_for_comparison, if_neg hc, if_neg hct]
    exact trim_idem p

theorem splitOnP_go_comma (l : Str) :
    ∀ (acc : Str) (p : Str) (ps : List Str), splitOnComma l = p :: ps →
      List.splitOnP.go (fun c => c == ',') l acc = (acc.reverse ++ p) :: ps := by
  induction l with
  | nil =>
    intro acc p ps h
    simp only [splitOnComma] at h
    cases h
    simp [List.splitOnP.go]
  | cons c rest ih =>
    intro acc p ps h
    rcases hs : splitOnComma rest with _ | ⟨q, qs⟩
    · exact absurd hs (splitOnComma_ne_nil rest)
    · simp only [splitOnComma, hs] at h
      by_cases hc : c = ','
      · rw [if_pos hc] at h
        injection h with h1 h2
        subst h1
        subst h2
        subst hc
        simp only [List.splitOnP.go]
        rw [if_pos (by simp)]
        rw [ih [] q qs hs]
        simp
      · rw [if_neg hc] at h
        injection h with h1 h2
        subst h1
        subst h2
        simp only [List.splitOnP.go]
        rw [if_neg (by simp [hc])]
        rw [ih (c :: acc) q qs hs]
        simp

theorem splitOnComma_eq_splitOn (l : Str) : splitOnComma l = l.splitOn ',' := by
  rcases h : splitOnComma l with _ | ⟨p, ps⟩
  · exact absurd h (splitOnComma_ne_nil l)
  · rw [List.splitOn, List.splitOnP, splitOnP_go_comma l [] p ps h]
    simp

theorem joinComma_eq_intercalate :
    ∀ ps : List Str, joinComma ps = List.intercalate [','] ps
  | [] => by simp [joinComma, List.intercalate, List.intersperse]
  | [p] => by simp [joinComma, List.intercalate, List.intersperse]
  | p :: q :: ps => by
    have ih := joinComma_eq_intercalate (q :: ps)
    simp only [joinComma, ih]
    simp [List.intercalate, List.intersperse]

/-! Supporting lemmas about the set model and the extraction helpers. -/

theorem mem_insertS {α : Type} [DecidableEq α] (s : List α) (x y : α) :
    y ∈ insertS s x ↔ y ∈ s ∨ y = x := by
  unfold insertS
  by_cases h : x ∈ s
  · rw [if_pos h]
    constructor
    · exact Or.inl
    · rintro (h1 | rfl)
      · exact h1
      · exact h
  · rw [if_neg h]
    simp [List.mem_append]

theorem mem_foldl_insertS {α : Type} [DecidableEq α] (l : List α) (acc : List α) (y : α) :
    y ∈ l.foldl insertS acc ↔ y ∈ acc ∨ y ∈ l := by
  induction l generalizing acc with
  | nil => simp
  | cons a t ih =>
    rw [List.foldl_cons, ih, mem_insertS, List.mem_cons]
    tauto

theorem mem_setOfList {α : Type} [DecidableEq α] (l : List α) (y : α) :
    y ∈ setOfList l ↔ y ∈ l := by
  unfold setOfList
  rw [mem_foldl_insertS]
  simp

theorem length_le_get_base_patterns_go :
    ∀ (l : List (Str × Str)) (base seen : List Str),
      base.length ≤ (get_base_patterns_go l base seen).length := by
  intro l
  induction l with
  | nil => intro base seen; simp [get_base_patterns_go]
  | cons cp rest ih =>
    intro base seen
    simp only [get_base_patterns_go]
    by_cases h : normalize_pattern_for_comparison (trim cp.2) ∈ seen
    · rw [if_pos h]
      exact ih base seen
    · rw [if_neg h]
      calc base.length ≤ (base ++ [trim cp.2]).length := by simp
        _ ≤ _ := ih _ _

theorem get_base_patterns_ne_nil {rps : List (Str × Str)} (h : rps ≠ []) :
    get_base_patterns rps ≠ [] := by
  rcases rps with _ | ⟨cp, rest⟩
  · exact absurd rfl h
  · unfold get_base_patterns
    simp only [get_base_patterns_go]
    rw [if_neg (List.not_mem_nil _)]
    intro hnil
    have hlen := length_le_get_base_patterns_go rest
      ([] ++ [trim cp.2]) ([] ++ [normalize_pattern_for_comparison (trim cp.2)])
    rw [hnil] at hlen
    simp at hlen

theorem analyze_passes_patterns_split (role : RoleDefinition) (inject_patterns : List Str)
    (reference_role : Option RoleDefinition) (skip_ccs_analysis : Bool) :
    (analyze_passes role inject_patterns reference_role skip_ccs_analysis).patterns_to_add =
      (analyze_passes role inject_patterns reference_role skip_ccs_analysis).ccs ++
        (analyze_passes role inject_patterns reference_role skip_ccs_analysis).inject ++
        (analyze_passes role inject_patterns reference_role skip_ccs_analysis).reference := rfl

theorem lookupKey_clean {V : Type} (d : List (String × V)) (k : String) :
    lookupKey k (clean_role_definition d) =
      if k ∈ stripped_metadata_fields then none else lookupKey k d := by
  induction d with
  | nil =>
    by_cases hk : k ∈ stripped_metadata_fields <;>
      simp [clean_role_definition, lookupKey, hk]
  | cons kv rest ih =>
    by_cases hm : kv.1 ∈ (["_reserved", "_deprecated", "_deprecated_reason"] : List String)
    · have hp : (decide (kv.1 ∉ (["_reserved", "_deprecated", "_deprecated_reason"] :
          List String)) : Bool) = false := by simp [hm]
      simp only [clean_role_definition, List.filter_cons, hp, if_false, Bool.false_eq_true]
      rw [show List.filter (fun kv =>
        decide (kv.1 ∉ (["_reserved", "_deprecated", "_deprecated_reason"] : List String))) rest =
        clean_role_definition rest from rfl]
      rw [ih]
      by_cases hk : k ∈ stripped_metadata_fields
      · simp [hk]
      · have hne : kv.1 ≠ k := fun he => hk (he ▸ hm)
        simp [hk, lookupKey, hne]
    · have hp : (decide (kv.1 ∉ (["_reserved", "_deprecated", "_deprecated_reason"] :
          List String)) : Bool) = true := by simp [hm]
      simp only [clean_role_definition, List.filter_cons, hp, if_true]
      rw [show List.filter (fun kv =>
        decide (kv.1 ∉ (["_reserved", "_deprecated", "_deprecated_reason"] : List String))) rest =
        clean_role_definition rest from rfl]
      by_cases hk1 : kv.1 = k
      · have hk : k ∉ stripped_metadata_fields := fun hkm => hm (hk1 ▸ hkm)
        simp [lookupKey, hk1, hk]
      · have hstep : lookupKey k (kv :: clean_role_definition rest) =
            lookupKey k (clean_role_definition rest) := by
          simp [lookupKey, hk1]
        rw [hstep, ih]
        by_cases hk : k ∈ stripped_metadata_fields
        · simp [hk]
        · simp [hk, lookupKey, hk1]

theorem scanParts_filter (parts : List Str) :
    ∀ (cp : Option Str) (lp : List Str),
      scanParts (parts.filter fun q => decide (':' ∈ trim q)) cp lp =
        scanParts parts cp lp := by
  induction parts with
  | nil => intro cp lp; rfl
  | cons part rest ih =>
    intro cp lp
    by_cases h : ':' ∈ trim part
    · have hp : (decide (':' ∈ trim part) : Bool) = true := by simp [h]
      simp only [List.filter_cons, hp, if_true]
      cases cp with
      | none =>
        simp only [scanParts, if_pos h]
        exact ih _ _
      | some c =>
        simp only [scanParts, if_pos h]
        by_cases hcl : (splitFirstColon (trim part)).1 = c
        · simp only [if_pos hcl]
          exact ih _ _
        · simp only [if_neg hcl]
    · have hp : (decide (':' ∈ trim part) : Bool) = false := by simp [h]
      simp only [List.filter_cons, hp, if_false, Bool.false_eq_true]
      rw [ih]
      cases cp with
      | none => simp only [scanParts, if_neg h]
      | some c => simp only [scanParts, if_neg h]

theorem commaFallback_cons (part : Str) (rest : List Str) :
    commaFallback (part :: rest) =
      (if ':' ∈ trim part then [splitFirstColon (trim part)] else []) ++
        commaFallback rest := by
  simp [commaFallback]

theorem commaFallback_filter (parts : List Str) :
    commaFallback (parts.filter fun q => decide (':' ∈ trim q)) = commaFallback parts := by
  induction parts with
  | nil => rfl
  | cons part rest ih =>
    by_cases h : ':' ∈ trim part
    · have hp : (decide (':' ∈ trim part) : Bool) = true := by simp [h]
      simp only [List.filter_cons, hp, if_true]
      rw [commaFallback_cons, commaFallback_cons, ih]
    · have hp : (decide (':' ∈ trim part) : Bool) = false := by simp [h]
      simp only [List.filter_cons, hp, if_false, Bool.false_eq_true]
      rw [ih, commaFallback_cons, if_neg h]
      simp

theorem commaBranch_filter (parts : List Str) :
    commaBranch (parts.filter fun q => decide (':' ∈ trim q)) = commaBranch parts := by
  unfold commaBranch
  rw [scanParts_filter parts none [], commaFallback_filter parts]

/-! Claim theorems. -/

/-- C1 counterexample: for the role that has local pattern
`metrics-*,traces-*` and remote token `prod:traces-*,metrics-*` (same two
comma parts in a different order), `needs_update` does NOT propose
nothing: the comma piece `metrics-*` carries no colon, so the extraction
drops it, the extracted base pattern is just `traces-*`, its normalized
form differs from the normalized local pattern, and `traces-*` is
proposed. This refutes the claim as stated. -/
theorem c1_counterexample :
    needs_update roleMixedToken = (true, ["traces-*".toList]) ∧
      needs_update roleMixedToken ≠ (false, []) := by
  constructor
  · decide
  · decide

/-- C1 (amended): when each comma piece of the remote token carries the
shared alias — remote token `prod:traces-*,prod:metrics-*` next to local
pattern `metrics-*,traces-*` — reconciliation proposes nothing for that
remote entry, because the extracted base pattern `traces-*,metrics-*`
normalizes to `metrics-*,traces-*`, equal to the normalized local
pattern. -/
theorem c1_amended_normalized_match :
    needs_update roleAliasedToken = (false, []) := by decide

/-- C2 counterexample: `add_local_patterns_to_role` applied to an empty
set of patterns does not fail: it returns an updated role definition with
one extra grant entry whose names list is empty. No `InvalidRoleError`
(or any other failure path) exists in the function. -/
theorem c2_counterexample :
    add_local_patterns_to_role roleEmpty [] =
      { indices := [emptyAddResultEntry] } := by decide

/-- C2 (amended): `add_local_patterns_to_role` performs no emptiness
validation: for every role and an empty pattern set it still returns an
updated role definition carrying exactly one additional grant entry, whose
names list is empty. -/
theorem c2_amended_empty_accepted (role : RoleDefinition) :
    (add_local_patterns_to_role role []).indices.length = role.indices.length + 1 ∧
    (add_local_patterns_to_role role []).indices.map (fun e => e.names) =
      role.indices.map (fun e => e.names) ++ [[]] := by
  constructor
  · simp [add_local_patterns_to_role]
  · simp [add_local_patterns_to_role]

/-- C5: for the non-reserved role whose only grant has names
`["prod:logs-*", "qa:logs-*"]` and no local patterns, with required
baseline `{"partial-*", "restored-*"}`, `analyze_role` proposes exactly
`{logs-*, partial-*, restored-*}`, with `logs-*` tagged remote-derived
(`ccs`; the two remote tokens collapse to one base pattern by
normalized-form deduplication) and the other two tagged injected
(`inject`). -/
theorem c5_baseline_injection_scenario :
    analyze_role roleTwoClusters false ["partial-*".toList, "restored-*".toList]
      none false = some expectedTwoClusters := by decide

/-- C6: `normalize_pattern_for_comparison` computes exactly what the spec
describes — on a comma-carrying input: split on commas, trim each part,
sort lexicographically and rejoin with commas (here expressed through the
independent library combinators `List.splitOn` and `List.intercalate`);
otherwise the trimmed input. It is total: the equation holds for every
string, including the empty one. -/
theorem c6_normalize_matches_spec :
    ∀ p : Str, normalize_pattern_for_comparison p = normalize_pattern_spec p := by
  intro p
  unfold normalize_pattern_for_comparison normalize_pattern_spec
  by_cases hc : ',' ∈ p
  · rw [if_pos hc, if_pos hc, splitOnComma_eq_splitOn, joinComma_eq_intercalate]
  · rw [if_neg hc, if_neg hc]

/-- C7: the normalizer is idempotent, order-insensitive on comma lists
(`b,a` and `a,b` normalize identically) and part-count-sensitive
(`a,b` and `a` do not). -/
theorem c7_normalize_algebra :
    (∀ p : Str, normalize_pattern_for_comparison (normalize_pattern_for_comparison p) =
      normalize_pattern_for_comparison p) ∧
    normalize_pattern_for_comparison ("b,a".toList) =
      normalize_pattern_for_comparison ("a,b".toList) ∧
    normalize_pattern_for_comparison ("a,b".toList) ≠
      normalize_pattern_for_comparison ("a".toList) :=
  ⟨normalize_pattern_idem, by decide, by decide⟩

theorem forceResult_of_empty (pre : AnalyzeResult) (rps : List (Str × Str))
    (h : pre.patterns_to_add = []) (hc : pre.ccs = [])
    (hi : pre.inject = []) (hr : pre.reference = []) :
    forceResult pre rps =
      { patterns_to_add := setOfList (get_base_patterns rps)
        ccs := setOfList (get_base_patterns rps)
        inject := []
        reference := [] } := by
  cases pre with
  | mk pa pc pi pr =>
    simp only at h hc hi hr
    subst h
    subst hc
    subst hi
    subst hr
    rfl

theorem setOfList_ne_nil_of_ne_nil {l : List Str} (h : l ≠ []) : setOfList l ≠ [] := by
  rcases hex : l with _ | ⟨x, t⟩
  · exact absurd hex h
  · intro hnil
    have hx : x ∈ setOfList l := (mem_setOfList l x).mpr (hex ▸ List.mem_cons_self x t)
    rw [hex, hnil] at hx
    exact List.not_mem_nil x hx

/-- C3: a reserved role is never selected for mutation: per-role
reconciliation (`analyze_roles` of the multi-pass driver), `needs_update`,
and the selective driver's per-role analysis all return the empty result
unconditionally for a reserved role, regardless of remote patterns,
injected baseline, reference sets, or force mode. -/
theorem c3_reserved_never_selected :
    (∀ (role : RoleDefinition) (force : Bool) (inject_patterns : List Str)
        (reference_role : Option RoleDefinition) (skip_ccs_analysis : Bool),
      role.metadata_reserved = true →
        analyze_role role force inject_patterns reference_role skip_ccs_analysis = none) ∧
    (∀ role : RoleDefinition, role.metadata_reserved = true →
      needs_update role = (false, [])) ∧
    (∀ (role : RoleDefinition) (force : Bool), role.metadata_reserved = true →
      analyze_selected_role role force = none) := by
  refine ⟨?_, ?_, ?_⟩
  · intro role force ip rr sk h
    simp [analyze_role, h]
  · intro role h
    simp [needs_update, h]
  · intro role force h
    simp [analyze_selected_role, h]

/-- C3 witness: the reserved role with a remote pattern, with force mode
enabled, a nonempty baseline and a reference set, still yields the empty
result in all three entry points. -/
theorem c3_reserved_never_selected_witness :
    analyze_role roleReserved true ["partial-*".toList] (some roleTwoClusters) false =
      none ∧
    needs_update roleReserved = (false, []) ∧
    analyze_selected_role roleReserved true = none :=
  ⟨c3_reserved_never_selected.1 roleReserved true ["partial-*".toList]
      (some roleTwoClusters) false rfl,
    c3_reserved_never_selected.2.1 roleReserved rfl,
    c3_reserved_never_selected.2.2 roleReserved true rfl⟩

/-- C4: force mode. For every non-reserved role whose result after all
reconciliation passes is empty but which has at least one remote pattern,
`analyze_roles` instead returns the full set of base remote patterns
(cluster alias stripped, deduplicated by normalized form, tagged
remote-derived) — even though every one of them already exists locally —
and the result is not empty. -/
theorem c4_force_mode (role : RoleDefinition) (inject_patterns : List Str)
    (reference_role : Option RoleDefinition) (skip_ccs_analysis : Bool)
    (h1 : role.metadata_reserved = false)
    (h2 : (analyze_passes role inject_patterns reference_role
      skip_ccs_analysis).patterns_to_add = [])
    (h3 : extract_remote_patterns role ≠ []) :
    analyze_role role true inject_patterns reference_role skip_ccs_analysis =
      some { patterns_to_add := setOfList (get_base_patterns (extract_remote_patterns role))
             ccs := setOfList (get_base_patterns (extract_remote_patterns role))
             inject := []
             reference := [] } ∧
    (∀ q : Str, q ∈ setOfList (get_base_patterns (extract_remote_patterns role)) ↔
      q ∈ get_base_patterns (extract_remote_patterns role)) ∧
    setOfList (get_base_patterns (extract_remote_patterns role)) ≠ [] := by
  have hsplit := analyze_passes_patterns_split role inject_patterns reference_role
    skip_ccs_analysis
  rw [h2] at hsplit
  have h4 := List.append_eq_nil.mp hsplit.symm
  have h5 := List.append_eq_nil.mp h4.1
  have hbase : get_base_patterns (extract_remote_patterns role) ≠ [] :=
    get_base_patterns_ne_nil h3
  have hsne : setOfList (get_base_patterns (extract_remote_patterns role)) ≠ [] :=
    setOfList_ne_nil_of_ne_nil hbase
  refine ⟨?_, fun q => mem_setOfList _ q, hsne⟩
  simp only [analyze_role]
  rw [if_neg (by simp [h1])]
  rw [if_pos (And.intro h2 (And.intro trivial h3))]
  rw [forceResult_of_empty _ _ h2 h5.1 h5.2 h4.2]
  rw [if_neg hsne]

/-- C4 witness: for the non-reserved role whose only remote pattern
`prod:logs-*` is already covered by its local pattern `logs-*` (so the
passes propose nothing), force mode still returns the full base-pattern
set. -/
theorem c4_force_mode_witness :
    analyze_role roleCovered true [] none false =
      some { patterns_to_add := setOfList (get_base_patterns
               (extract_remote_patterns roleCovered))
             ccs := setOfList (get_base_patterns (extract_remote_patterns roleCovered))
             inject := []
             reference := [] } ∧
    setOfList (get_base_patterns (extract_remote_patterns roleCovered)) ≠ [] := by
  have h := c4_force_mode roleCovered [] none false rfl (by decide) (by decide)
  exact ⟨h.1, h.2.2⟩

/-- C8: for every role and every non-empty pattern set,
`add_local_patterns_to_role` returns a definition with exactly one more
grant entry; all pre-existing grant entries appear unchanged (they form
the prefix of the output), and every other field of the role is
unchanged. The Python function operates on a deep copy, so the input
argument itself is untouched; in this pure embedding that frame condition
is intrinsic. -/
theorem c8_apply_patterns_frame (role : RoleDefinition) (patterns_to_add : List Str)
    (hne : patterns_to_add ≠ []) :
    (add_local_patterns_to_role role patterns_to_add).indices.take
        role.indices.length = role.indices ∧
    (add_local_patterns_to_role role patterns_to_add).indices.length =
        role.indices.length + 1 ∧
    (add_local_patterns_to_role role patterns_to_add).remote_indices =
        role.remote_indices ∧
    (add_local_patterns_to_role role patterns_to_add).metadata_reserved =
        role.metadata_reserved := by
  refine ⟨?_, ?_, rfl, rfl⟩
  · exact List.take_left role.indices _
  · simp [add_local_patterns_to_role]

/-- C8 witness: the frame conditions at a concrete role and a concrete
non-empty pattern set. -/
theorem c8_apply_patterns_frame_witness :
    (add_local_patterns_to_role roleCovered ["metrics-*".toList]).indices.take
        roleCovered.indices.length = roleCovered.indices ∧
    (add_local_patterns_to_role roleCovered ["metrics-*".toList]).indices.length =
        roleCovered.indices.length + 1 :=
  ⟨(c8_apply_patterns_frame roleCovered ["metrics-*".toList] (by decide)).1,
    (c8_apply_patterns_frame roleCovered ["metrics-*".toList] (by decide)).2.1⟩

/-- C9: the document transmitted by `update_role` is the input with the
fields `_reserved`, `_deprecated` and `_deprecated_reason` stripped and
every other field unchanged (the lookup of a stripped key yields `none`,
any other key yields exactly the input's value), and rollback-restore's
`clean_role_definition` performs the identical stripping. -/
theorem c9_put_role_strips_metadata (V : Type) (d : List (String × V)) (k : String) :
    clean_role_definition d = update_role_clean_definition d ∧
    lookupKey k (update_role_clean_definition d) =
      (if k ∈ stripped_metadata_fields then none else lookupKey k d) :=
  ⟨rfl, lookupKey_clean d k⟩

/-- C10: inside a mixed name token (one with both a colon and commas) the
extraction silently drops every comma piece without a colon, and a
colon-carrying token contributes nothing to the local pattern set:
(1) the comma branch of `extract_remote_patterns` is invariant under
removing the colon-free pieces, so such a piece reaches neither the
emitted remote pairs nor the combined pattern; (2) a name containing a
colon contributes no local pattern; (3) consequently, for a mixed token
the per-name remote extraction equals the extraction of only its
colon-carrying pieces. Membership of the colon is checked on the trimmed
piece, exactly as the code strips each piece before testing; trimming
never removes a colon. -/
theorem c10_colon_free_pieces_vanish :
    (∀ parts : List Str,
      commaBranch (parts.filter fun q => decide (':' ∈ trim q)) = commaBranch parts) ∧
    (∀ name : Str, ':' ∈ name → local_from_name name = []) ∧
    (∀ name : Str, ':' ∈ name → ',' ∈ name →
      remote_from_name name =
        commaBranch ((splitOnComma name).filter fun q => decide (':' ∈ trim q))) := by
  refine ⟨commaBranch_filter, ?_, ?_⟩
  · intro name h
    simp [local_from_name, h]
  · intro name h1 h2
    rw [remote_from_name, if_pos h1, if_pos h2, commaBranch_filter]

/-- C10 witness: the token `prod:traces-*,metrics-*` contributes no local
pattern, and its remote extraction coincides with the extraction of its
sole colon-carrying piece. -/
theorem c10_colon_free_pieces_vanish_witness :
    local_from_name ("prod:traces-*,metrics-*".toList) = [] ∧
    remote_from_name ("prod:traces-*,metrics-*".toList) =
      commaBranch ((splitOnComma ("prod:traces-*,metrics-*".toList)).filter
        fun q => decide (':' ∈ trim q)) :=
  ⟨c10_colon_free_pieces_vanish.2.1 ("prod:traces-*,metrics-*".toList) (by decide),
    c10_colon_free_pieces_vanish.2.2 ("prod:traces-*,metrics-*".toList)
      (by decide) (by decide)⟩
